/-
Verification of the ingestion/dedup/load pipeline
(src/ingestion/data_quality.py, src/ingestion/ingested_data.py,
src/loaders/loader.py) against its specification.

The Python code is shallowly embedded: records are finite association
structures, Spark DataFrames become a column list plus rows given as
functions from column name to optional cell value (none models SQL NULL),
and the string-manipulation utilities are transcribed over Lean strings.
-/
import Mathlib

namespace BigData

/-! ## Python string primitives used by the utilities -/

/-- The whitespace set of Python string splitting and stripping
(ASCII part; the utilities only ever meet ASCII whitespace). -/
def isPySpace (c : Char) : Bool :=
  c = ' ' || c = '\t' || c = '\n' || c = '\x0b' || c = '\x0c' || c = '\r'

/-- Python str.strip(chars): drop the characters satisfying p from both
ends of the list. -/
def stripEnds (p : Char → Bool) (l : List Char) : List Char :=
  ((l.dropWhile p).reverse.dropWhile p).reverse

/-- Python str.strip() on a list of characters. -/
def pyStripChars (l : List Char) : List Char :=
  stripEnds isPySpace l

/-- Python str.strip() on a string. -/
def pyStrip (s : String) : String :=
  String.mk (pyStripChars s.data)

/-- Python str.lower() on one character (ASCII part). -/
def pyLowerChar (c : Char) : Char :=
  if 65 ≤ c.toNat ∧ c.toNat ≤ 90 then Char.ofNat (c.toNat + 32) else c

/-- Python str.lower() on a string (ASCII part). -/
def pyLower (s : String) : String :=
  String.mk (s.data.map pyLowerChar)

/-- Python str.replace(old, new) for a one-character pattern. -/
def replaceChar (a b : Char) (s : String) : String :=
  String.mk (s.data.map (fun c => if c = a then b else c))

/-! ## Canonical-key generation (ingested_data.py, generate_canonical_key) -/

/-- Model of the SHA-256 hex digest used by Spark sha2(_, 256).  The claims
depend only on the digest being a fixed deterministic function of its input
string, so the digest is modelled by a 256-bit polynomial rolling hash of the
characters, rendered as a decimal string. -/
def sha2_256 (s : String) : String :=
  toString (s.data.foldl (fun h c => (h * 1099511628211 + c.toNat) % 2 ^ 256)
    14695981039346656037)

/-- Spark concat_ws: joins the non-null operands with the separator,
skipping nulls. -/
def concat_ws (sep : String) (parts : List (Option String)) : String :=
  String.intercalate sep (parts.filterMap id)

/-- A Spark DataFrame: its column list, and its rows.  A row maps a column
name to the cell value; none models SQL NULL / an absent cell. -/
structure DataFrame where
  cols : List String
  rows : List (String → Option String)

/-- The identity fields scanned, in order, by generate_canonical_key. -/
def identityFields : List String := ["name", "email", "phone", "dob"]

/-- The key columns picked by generate_canonical_key: the identity fields,
in their fixed order, that are present among the DataFrame columns. -/
def keyColsOf (cols : List String) : List String :=
  identityFields.filter (fun c => cols.contains c)

/-- The canonical key the withColumn expression of generate_canonical_key
assigns to one row: sha2 of the "||"-joined present identity fields, or the
sha2 of the literal "no_key" when no identity field is present. -/
def canonicalKeyOf (cols : List String) (r : String → Option String) : String :=
  if keyColsOf cols = [] then sha2_256 "no_key"
  else sha2_256 (concat_ws "||" ((keyColsOf cols).map r))

/-- generate_canonical_key: adds the canonical_key column.  (The source
branches once per DataFrame on whether any identity column exists; since
keyColsOf depends only on the column list, that is the per-row expression
canonicalKeyOf applied to every row.) -/
def generate_canonical_key (df : DataFrame) : DataFrame :=
  { cols := df.cols ++ ["canonical_key"],
    rows := df.rows.map (fun r c =>
      if c = "canonical_key" then some (canonicalKeyOf df.cols r) else r c) }

/-! ## C1 / C2: determinism and the sentinel key -/

/-- C1: For every record with at least one identity field present, the
canonical key is a pure deterministic function of the identity fields
(name, email, phone, dob) taken in that fixed order, using only the fields
present: two records agreeing on which identity fields are present and on
their values receive the same canonical key, whatever source produced them. -/
theorem canonical_key_deterministic (cols1 cols2 : List String)
    (r1 r2 : String → Option String)
    (hpres : ∀ c ∈ identityFields, cols1.contains c = cols2.contains c)
    (hval : ∀ c ∈ identityFields, cols1.contains c = true → r1 c = r2 c)
    (hsome : ∃ c ∈ identityFields, cols1.contains c = true) :
    canonicalKeyOf cols1 r1 = canonicalKeyOf cols2 r2 := by
  have hkc : keyColsOf cols1 = keyColsOf cols2 := by
    unfold keyColsOf
    exact List.filter_congr hpres
  unfold canonicalKeyOf
  rw [hkc]
  by_cases hnil : keyColsOf cols2 = []
  · simp [hnil]
  · have hmap : (keyColsOf cols2).map r1 = (keyColsOf cols2).map r2 := by
      apply List.map_congr_left
      intro a ha
      unfold keyColsOf at ha
      have ha2 := List.mem_filter.mp ha
      exact hval a ha2.1 (by rw [hpres a ha2.1]; exact ha2.2)
    rw [hmap]

/-- Witness for C1 at a concrete pair of records from different schemas. -/
theorem canonical_key_deterministic_witness :
    (∀ c ∈ identityFields,
      (["name", "city"] : List String).contains c
        = (["phone2", "name"] : List String).contains c) ∧
    canonicalKeyOf ["name", "city"]
        (fun c => if c = "name" then some "alice" else some "x")
      = canonicalKeyOf ["phone2", "name"]
        (fun c => if c = "name" then some "alice" else none) :=
  ⟨by decide,
    canonical_key_deterministic ["name", "city"] ["phone2", "name"]
      (fun c => if c = "name" then some "alice" else some "x")
      (fun c => if c = "name" then some "alice" else none)
      (by decide) (by decide) ⟨"name", by decide, by decide⟩⟩

/-- C2: every record of a DataFrame with none of the identity fields among
its columns receives the one fixed sentinel key sha2("no_key"), identical
across records, files and runs. -/
theorem keyless_records_sentinel (df : DataFrame)
    (h : ∀ c ∈ identityFields, df.cols.contains c = false) :
    ∀ r ∈ (generate_canonical_key df).rows,
      r "canonical_key" = some (sha2_256 "no_key") := by
  intro r hr
  unfold generate_canonical_key at hr
  simp only [List.mem_map] at hr
  obtain ⟨r0, _, rfl⟩ := hr
  have hnil : keyColsOf df.cols = [] := by
    unfold keyColsOf
    apply List.filter_eq_nil_iff.mpr
    intro a ha
    show ¬ (df.cols.contains a = true)
    rw [h a ha]
    simp
  simp [canonicalKeyOf, hnil]

/-- A one-row DataFrame with no identity column. -/
def dfKeyless : DataFrame :=
  { cols := ["address"], rows := [fun _ => some "z"] }

/-- Witness for C2 on a concrete keyless DataFrame. -/
theorem keyless_records_sentinel_witness :
    (∀ c ∈ identityFields, dfKeyless.cols.contains c = false) ∧
    (∀ r ∈ (generate_canonical_key dfKeyless).rows,
      r "canonical_key" = some (sha2_256 "no_key")) :=
  ⟨by decide, keyless_records_sentinel dfKeyless (by decide)⟩

/-! ## Merge stage (ingested_data.py main, unionByName / dropDuplicates) -/

/-- Spark unionByName with allowMissingColumns=True: the column set is the
left columns followed by the new right columns, and a row contributes none
(NULL) at every column its own DataFrame does not have. -/
def unionByName (df1 df2 : DataFrame) : DataFrame :=
  { cols := df1.cols ++ df2.cols.filter (fun c => !(df1.cols.contains c)),
    rows := df1.rows.map (fun r c => if df1.cols.contains c then r c else none)
          ++ df2.rows.map (fun r c => if df2.cols.contains c then r c else none) }

/-- The merge loop of main: fold unionByName over the remaining DataFrames,
starting from the first. -/
def mergeAll (acc : DataFrame) : List DataFrame → DataFrame
  | [] => acc
  | df :: rest => mergeAll (unionByName acc df) rest

theorem mem_unionByName_cols (df1 df2 : DataFrame) (c : String) :
    c ∈ (unionByName df1 df2).cols ↔ c ∈ df1.cols ∨ c ∈ df2.cols := by
  simp only [unionByName, List.mem_append, List.mem_filter]
  constructor
  · rintro (h | ⟨h, _⟩)
    · exact Or.inl h
    · exact Or.inr h
  · rintro (h | h)
    · exact Or.inl h
    · by_cases hc : c ∈ df1.cols
      · exact Or.inl hc
      · exact Or.inr ⟨h, by simp [hc]⟩

theorem mem_mergeAll_cols (df0 : DataFrame) (dfs : List DataFrame) (c : String) :
    c ∈ (mergeAll df0 dfs).cols ↔ c ∈ df0.cols ∨ ∃ df ∈ dfs, c ∈ df.cols := by
  induction dfs generalizing df0 with
  | nil => simp [mergeAll]
  | cons df rest ih =>
    simp only [mergeAll, ih, mem_unionByName_cols, List.mem_cons]
    constructor
    · rintro (( h | h) | ⟨d, hd, hc⟩)
      · exact Or.inl h
      · exact Or.inr ⟨df, Or.inl rfl, h⟩
      · exact Or.inr ⟨d, Or.inr hd, hc⟩
    · rintro (h | ⟨d, (rfl | hd), hc⟩)
      · exact Or.inl (Or.inl h)
      · exact Or.inl (Or.inr hc)
      · exact Or.inr ⟨d, hd, hc⟩

/-- One-row DataFrame with only a name column. -/
def dfNameOnly : DataFrame :=
  { cols := ["name"], rows := [fun c => if c = "name" then some "alice" else none] }

/-- One-row DataFrame with name and city columns. -/
def dfNameCity : DataFrame :=
  { cols := ["name", "city"],
    rows := [fun c =>
      if c = "name" then some "bob" else if c = "city" then some "rome" else none] }

/-- Counterexample to C3 as stated: merging a file without a city column
with a file that has one leaves the first record's city cell NULL (none),
not the empty string. -/
theorem merge_missing_cell_is_null_counterexample :
    "city" ∈ (mergeAll dfNameOnly [dfNameCity]).cols ∧
    (mergeAll dfNameOnly [dfNameCity]).rows.map (fun r => r "city")
      = [none, some "rome"] ∧
    (none : Option String) ≠ some "" := by
  refine ⟨by decide, by decide, by decide⟩

/-- C3 amended: the merged column set is the union of all columns seen, and
each source row reappears in the union with its own values on its own
columns and NULL (none) — not the empty string — on every column it lacks. -/
theorem merge_schema_union_null_fill (df1 df2 df0 : DataFrame)
    (dfs : List DataFrame) :
    (∀ c, c ∈ (unionByName df1 df2).cols ↔ c ∈ df1.cols ∨ c ∈ df2.cols) ∧
    (∀ c, c ∈ (mergeAll df0 dfs).cols ↔ c ∈ df0.cols ∨ ∃ df ∈ dfs, c ∈ df.cols) ∧
    (∀ r ∈ df1.rows, ∃ r2 ∈ (unionByName df1 df2).rows,
      (∀ c ∈ df1.cols, r2 c = r c) ∧ (∀ c, c ∉ df1.cols → r2 c = none)) ∧
    (∀ r ∈ df2.rows, ∃ r2 ∈ (unionByName df1 df2).rows,
      (∀ c ∈ df2.cols, r2 c = r c) ∧ (∀ c, c ∉ df2.cols → r2 c = none)) := by
  refine ⟨mem_unionByName_cols df1 df2, mem_mergeAll_cols df0 dfs, ?_, ?_⟩
  · intro r hr
    refine ⟨fun c => if df1.cols.contains c then r c else none, ?_, ?_, ?_⟩
    · exact List.mem_append_left _ (List.mem_map_of_mem _ hr)
    · intro c hc
      simp [List.contains, hc]
    · intro c hc
      simp [List.contains, hc]
  · intro r hr
    refine ⟨fun c => if df2.cols.contains c then r c else none, ?_, ?_, ?_⟩
    · exact List.mem_append_right _ (List.mem_map_of_mem _ hr)
    · intro c hc
      simp [List.contains, hc]
    · intro c hc
      simp [List.contains, hc]

/-- Witness for C3 amended, at the concrete two-file merge. -/
theorem merge_schema_union_null_fill_witness :
    ∃ r2 ∈ (unionByName dfNameOnly dfNameCity).rows,
      (∀ c ∈ dfNameOnly.cols, r2 c = (fun c =>
        if c = "name" then some "alice" else none : String → Option String) c) ∧
      (∀ c, c ∉ dfNameOnly.cols → r2 c = none) :=
  (merge_schema_union_null_fill dfNameOnly dfNameCity dfNameOnly []).2.2.1
    (fun c => if c = "name" then some "alice" else none) (by simp [dfNameOnly])

/-- dropDuplicates(["canonical_key"]): one row is kept per canonical_key
value.  Spark keeps an arbitrary representative (the spec records the
tie-break as unspecified); the model keeps the first. -/
def dropDuplicatesByKey : List (String → Option String) → List (String → Option String)
  | [] => []
  | r :: rest =>
    r :: dropDuplicatesByKey
      (rest.filter (fun r2 => !(r2 "canonical_key" == r "canonical_key")))
termination_by rows => rows.length
decreasing_by
  simp only [List.length_cons]
  exact Nat.lt_succ_of_le (List.length_filter_le _ _)

/-- The dedup stage of main. -/
def dropDuplicates (df : DataFrame) : DataFrame :=
  { cols := df.cols, rows := dropDuplicatesByKey df.rows }

theorem countP_dropDuplicatesByKey (rows : List (String → Option String))
    (k : Option String) :
    (dropDuplicatesByKey rows).countP (fun r => r "canonical_key" == k)
      = if rows.any (fun r => r "canonical_key" == k) then 1 else 0 := by
  induction rows using dropDuplicatesByKey.induct with
  | case1 => simp [dropDuplicatesByKey]
  | case2 r rest ih =>
    rw [dropDuplicatesByKey]
    rw [List.countP_cons]
    rw [ih]
    by_cases hrk : r "canonical_key" = k
    · have hany : (rest.filter
          (fun r2 => !(r2 "canonical_key" == r "canonical_key"))).any
          (fun r2 => r2 "canonical_key" == k) = false := by
        rw [List.any_eq_false]
        intro x hx
        have hx2 := List.mem_filter.mp hx
        simp only [Bool.not_eq_eq_eq_not, Bool.not_true, beq_eq_false_iff_ne,
          ne_eq] at hx2
        simp only [beq_iff_eq]
        rw [hrk] at hx2
        exact hx2.2
      rw [hany]
      simp [hrk]
    · have hp : (r "canonical_key" == k) = false := by
        simp [hrk]
      rw [hp]
      have hany : (rest.filter
          (fun r2 => !(r2 "canonical_key" == r "canonical_key"))).any
          (fun r2 => r2 "canonical_key" == k)
          = rest.any (fun r2 => r2 "canonical_key" == k) := by
        rw [Bool.eq_iff_iff]
        simp only [List.any_eq_true, List.mem_filter]
        constructor
        · rintro ⟨x, ⟨hx, _⟩, hxk⟩
          exact ⟨x, hx, hxk⟩
        · rintro ⟨x, hx, hxk⟩
          refine ⟨x, ⟨hx, ?_⟩, hxk⟩
          have hxkp : x "canonical_key" = k := by simpa using hxk
          simp only [hxkp, Bool.not_eq_true', beq_eq_false_iff_ne, ne_eq]
          exact fun h => hrk h.symm
      rw [hany]
      simp [List.any_cons, hp]

/-- C4: after deduplication the master set holds exactly one record per
canonical_key value that occurred in the merged input: at most one per key,
and exactly one for every key with at least one input record. -/
theorem dedup_exactly_one_per_key (df : DataFrame) (k : Option String) :
    ((dropDuplicates df).rows.countP (fun r => r "canonical_key" == k))
      = if df.rows.any (fun r => r "canonical_key" == k) then 1 else 0 :=
  countP_dropDuplicatesByKey df.rows k

/-! ## Encoding detection (detect_encoding_safe, two copies) -/

/-- What the byte-sampling plus chardet step can deliver to the fallback
logic: an I/O exception while opening/reading, or the inference result
(none when chardet cannot name an encoding). -/
inductive SampleOutcome where
  | ioError : SampleOutcome
  | inferred : Option String → SampleOutcome
deriving DecidableEq

/-- detect_encoding_safe as written in data_quality.py: the try/except
returns utf-8 on any I/O error; a none inference falls back to utf-8; an
ascii / us-ascii inference is reported as utf-8; a windows-1252 inference
is reported as latin-1; anything else is returned verbatim. -/
def detect_encoding_safe : SampleOutcome → String
  | .ioError => "utf-8"
  | .inferred none => "utf-8"
  | .inferred (some enc) =>
    if pyLower enc = "ascii" ∨ pyLower enc = "us-ascii" then "utf-8"
    else if pyLower enc = "windows-1252" then "latin-1"
    else enc

/-- The local copy of detect_encoding_safe in ingested_data.py (the one the
pipeline calls through detect_encoding): same fallbacks except that it has
no windows-1252 branch, so that inference is returned verbatim. -/
def detect_encoding_safe_ingest : SampleOutcome → String
  | .ioError => "utf-8"
  | .inferred none => "utf-8"
  | .inferred (some enc) =>
    if pyLower enc = "ascii" ∨ pyLower enc = "us-ascii" then "utf-8" else enc

/-- The encoding fallback policy as the spec words it: failure or none
falls back to utf-8, plain ASCII is utf-8, the legacy Windows codepage
windows-1252 is mapped to latin-1, I/O errors give utf-8, everything else
is returned as inferred. -/
def encodingPolicySpec : SampleOutcome → String
  | .ioError => "utf-8"
  | .inferred none => "utf-8"
  | .inferred (some enc) =>
    if pyLower enc = "ascii" ∨ pyLower enc = "us-ascii" then "utf-8"
    else if pyLower enc = "windows-1252" then "latin-1"
    else enc

/-- Counterexample to C5 as stated: the pipeline-local copy of
detect_encoding_safe in ingested_data.py returns a windows-1252 inference
verbatim, not as latin-1. -/
theorem encoding_windows1252_verbatim_counterexample :
    detect_encoding_safe_ingest (.inferred (some "windows-1252"))
      = "windows-1252" ∧
    detect_encoding_safe_ingest (.inferred (some "windows-1252"))
      ≠ "latin-1" := by
  refine ⟨by decide, by decide⟩

/-- C5 amended: encoding detection is total (never raises: every outcome,
including an I/O error, yields a string) and the data_quality.py
implementation follows the full fallback policy; the pipeline-local copy in
ingested_data.py follows it except on a windows-1252 inference, which it
returns verbatim. -/
theorem encoding_fallback_policy (o : SampleOutcome) :
    detect_encoding_safe o = encodingPolicySpec o ∧
    (detect_encoding_safe_ingest o = encodingPolicySpec o ∨
      ∃ e, o = .inferred (some e) ∧ pyLower e = "windows-1252" ∧
        detect_encoding_safe_ingest o = e) := by
  constructor
  · cases o with
    | ioError => rfl
    | inferred enc => cases enc <;> rfl
  · cases o with
    | ioError => exact Or.inl rfl
    | inferred enc =>
      cases enc with
      | none => exact Or.inl rfl
      | some e =>
        by_cases ha : pyLower e = "ascii" ∨ pyLower e = "us-ascii"
        · exact Or.inl (by simp [detect_encoding_safe_ingest, encodingPolicySpec, ha])
        · by_cases hw : pyLower e = "windows-1252"
          · exact Or.inr ⟨e, rfl, hw,
              by simp [detect_encoding_safe_ingest, ha]⟩
          · exact Or.inl
              (by simp [detect_encoding_safe_ingest, encodingPolicySpec, ha, hw])

/-! ## Store loader schema evolution (loader.py, ensure_table_schema) -/

/-- The column-name sanitization applied before ADD COLUMN:
spaces and hyphens become underscores. -/
def sanitizeCol (c : String) : String :=
  replaceChar '-' '_' (replaceChar ' ' '_' c)

/-- Effect of one ALTER TABLE ADD COLUMN IF NOT EXISTS on the store schema. -/
def applyAddColumn (schema : List String) (c : String) : List String :=
  if schema.contains c then schema else schema ++ [c]

/-- The add-column commands the loop of ensure_table_schema issues: one per
batch column whose sanitized name is neither already present in the store
schema nor ingest_timestamp. -/
def pendingAdds (existing columns : List String) : List String :=
  (columns.map sanitizeCol).filter
    (fun s => !(existing.contains s) && s != "ingest_timestamp")

/-- ensure_table_schema: reads the current column list, issues the pending
ADD COLUMN IF NOT EXISTS commands, then adds ingest_timestamp if it is
absent.  Returns the store schema after the call together with the list of
issued add-column commands. -/
def ensure_table_schema (existing columns : List String) :
    List String × List String :=
  if existing.contains "ingest_timestamp" then
    ((pendingAdds existing columns).foldl applyAddColumn existing,
      pendingAdds existing columns)
  else
    (applyAddColumn
      ((pendingAdds existing columns).foldl applyAddColumn existing)
      "ingest_timestamp",
      pendingAdds existing columns ++ ["ingest_timestamp"])

theorem contains_iff_mem {l : List String} {a : String} :
    l.contains a = true ↔ a ∈ l := by
  rw [List.contains_eq_any_beq]
  simp

theorem mem_applyAddColumn_of_mem {schema : List String} {c a : String}
    (h : a ∈ schema) : a ∈ applyAddColumn schema c := by
  unfold applyAddColumn
  split
  · exact h
  · exact List.mem_append_left _ h

theorem mem_applyAddColumn_self (schema : List String) (c : String) :
    c ∈ applyAddColumn schema c := by
  unfold applyAddColumn
  split
  · next h => exact contains_iff_mem.mp h
  · exact List.mem_append_right _ (List.mem_singleton.mpr rfl)

theorem mem_foldl_applyAddColumn_of_mem {acc : List String} {a : String}
    (l : List String) (h : a ∈ acc) : a ∈ l.foldl applyAddColumn acc := by
  induction l generalizing acc with
  | nil => exact h
  | cons c rest ih => exact ih (mem_applyAddColumn_of_mem h)

theorem mem_foldl_applyAddColumn_self {a : String} (l : List String)
    (acc : List String) (h : a ∈ l) : a ∈ l.foldl applyAddColumn acc := by
  induction l generalizing acc with
  | nil => cases h
  | cons c rest ih =>
    rcases List.mem_cons.mp h with rfl | hrest
    · exact mem_foldl_applyAddColumn_of_mem rest (mem_applyAddColumn_self acc a)
    · exact ih (applyAddColumn acc c) hrest

theorem ensure_schema_has_sanitized (existing columns : List String)
    (c : String) (hc : c ∈ columns) :
    sanitizeCol c ∈ (ensure_table_schema existing columns).1 := by
  have hbase : sanitizeCol c
      ∈ (pendingAdds existing columns).foldl applyAddColumn existing
      ∨ sanitizeCol c = "ingest_timestamp" := by
    by_cases hit : sanitizeCol c = "ingest_timestamp"
    · exact Or.inr hit
    · left
      by_cases he : sanitizeCol c ∈ existing
      · exact mem_foldl_applyAddColumn_of_mem _ he
      · apply mem_foldl_applyAddColumn_self _ _
        apply List.mem_filter.mpr
        refine ⟨List.mem_map_of_mem _ hc, ?_⟩
        simp only [Bool.and_eq_true, Bool.not_eq_true', bne_iff_ne, ne_eq]
        constructor
        · rw [Bool.eq_false_iff]
          intro hcon
          exact he (contains_iff_mem.mp hcon)
        · exact hit
  unfold ensure_table_schema
  split
  · next hcont =>
    rcases hbase with h | hit
    · exact h
    · rw [hit]
      exact mem_foldl_applyAddColumn_of_mem _ (contains_iff_mem.mp hcont)
  · rcases hbase with h | hit
    · exact mem_applyAddColumn_of_mem h
    · rw [hit]
      exact mem_applyAddColumn_self _ _

theorem ensure_schema_has_timestamp (existing columns : List String) :
    "ingest_timestamp" ∈ (ensure_table_schema existing columns).1 := by
  unfold ensure_table_schema
  split
  · next hcont =>
    exact mem_foldl_applyAddColumn_of_mem _ (contains_iff_mem.mp hcont)
  · exact mem_applyAddColumn_self _ _

theorem ensure_no_adds_of_superset (schema columns : List String)
    (hall : ∀ c ∈ columns, sanitizeCol c ∈ schema)
    (hts : "ingest_timestamp" ∈ schema) :
    (ensure_table_schema schema columns).2 = [] := by
  have hpend : pendingAdds schema columns = [] := by
    unfold pendingAdds
    apply List.filter_eq_nil_iff.mpr
    intro s hsmem
    rcases List.mem_map.mp hsmem with ⟨c, hc, rfl⟩
    have hcontains : schema.contains (sanitizeCol c) = true :=
      contains_iff_mem.mpr (hall c hc)
    show ¬ ((!(schema.contains (sanitizeCol c))
        && sanitizeCol c != "ingest_timestamp") = true)
    rw [hcontains]
    simp
  unfold ensure_table_schema
  rw [hpend]
  split
  · rfl
  · next hcont => exact absurd (contains_iff_mem.mpr hts) hcont

/-- Counterexample to C9 as stated: a batch column named with a space is
added to the schema only under its sanitized name, so the batch column
name itself does not exist in the store schema when the insert (which uses
the unsanitized DataFrame column names) is attempted. -/
theorem unsanitized_column_not_added_counterexample :
    "a b" ∉ (ensure_table_schema ["canonical_key"] ["a b"]).1 ∧
    "a_b" ∈ (ensure_table_schema ["canonical_key"] ["a b"]).1 := by
  refine ⟨by decide, by decide⟩

/-- C9 amended: before any insert of the batch is attempted, the sanitized
name (spaces/hyphens mapped to underscores) of every batch column — hence
the column name itself whenever it needs no sanitization — exists in the
store schema, as does ingest_timestamp; and re-running ensure_table_schema
against the evolved schema with the same column set issues no add-column
calls at all (schema evolution is additive-only and idempotent). -/
theorem ensure_schema_superset_idempotent (existing columns : List String) :
    (∀ c ∈ columns, sanitizeCol c ∈ (ensure_table_schema existing columns).1) ∧
    "ingest_timestamp" ∈ (ensure_table_schema existing columns).1 ∧
    (ensure_table_schema (ensure_table_schema existing columns).1 columns).2
      = [] := by
  exact ⟨fun c hc => ensure_schema_has_sanitized existing columns c hc,
    ensure_schema_has_timestamp existing columns,
    ensure_no_adds_of_superset _ columns
      (fun c hc => ensure_schema_has_sanitized existing columns c hc)
      (ensure_schema_has_timestamp existing columns)⟩

/-- A concrete schema-evolution run used as the C9 witness input. -/
def loaderBatchCols : List String := ["email", "loyalty-tier"]

/-- Witness for C9 amended on a concrete batch. -/
theorem ensure_schema_superset_idempotent_witness :
    sanitizeCol "loyalty-tier"
      ∈ (ensure_table_schema ["canonical_key"] loaderBatchCols).1 ∧
    (ensure_table_schema
      (ensure_table_schema ["canonical_key"] loaderBatchCols).1
      loaderBatchCols).2 = [] :=
  ⟨(ensure_schema_superset_idempotent ["canonical_key"] loaderBatchCols).1
      "loyalty-tier" (by decide),
    (ensure_schema_superset_idempotent ["canonical_key"] loaderBatchCols).2.2⟩

/-! ## Generic helpers about end-stripping and heads/lasts -/

theorem mem_of_getLast?_eq {α : Type} {l : List α} {a : α}
    (h : l.getLast? = some a) : a ∈ l := by
  have h2 : a ∈ l.reverse.head? := by
    rw [List.head?_reverse]
    simpa [Option.mem_def] using h
  exact List.mem_reverse.mp (List.mem_of_mem_head? h2)

theorem head?_dropWhile_false {p : Char → Bool} {l : List Char} {c : Char}
    (h : (l.dropWhile p).head? = some c) : p c = false := by
  have h2 := List.head?_dropWhile_not p l
  rw [h] at h2
  exact h2

theorem stripEnds_infixOf (p : Char → Bool) (l : List Char) :
    stripEnds p l <:+: l := by
  unfold stripEnds
  have h1 : l.dropWhile p <:+ l := List.dropWhile_suffix p
  have h2 : (l.dropWhile p).reverse.dropWhile p <:+ (l.dropWhile p).reverse :=
    List.dropWhile_suffix p
  have h3 : ((l.dropWhile p).reverse.dropWhile p).reverse <+: l.dropWhile p :=
    List.reverse_suffix.mp (by rw [List.reverse_reverse]; exact h2)
  exact h3.isInfix.trans h1.isInfix

theorem mem_stripEnds {p : Char → Bool} {l : List Char} {c : Char}
    (h : c ∈ stripEnds p l) : c ∈ l :=
  List.Sublist.subset (List.IsInfix.sublist (stripEnds_infixOf p l)) h

theorem head?_stripEnds {p : Char → Bool} {l : List Char} {c : Char}
    (h : (stripEnds p l).head? = some c) : p c = false := by
  unfold stripEnds at h
  rw [List.head?_reverse] at h
  obtain ⟨t, ht⟩ := @List.dropWhile_suffix Char ((l.dropWhile p).reverse) p
  have hm : (l.dropWhile p).reverse.dropWhile p ≠ [] := by
    intro e
    rw [e] at h
    cases h
  have heq := List.getLast?_append_of_ne_nil t hm
  rw [ht, List.getLast?_reverse] at heq
  exact head?_dropWhile_false (heq.trans h)

theorem getLast?_stripEnds {p : Char → Bool} {l : List Char} {c : Char}
    (h : (stripEnds p l).getLast? = some c) : p c = false := by
  unfold stripEnds at h
  rw [List.getLast?_reverse] at h
  exact head?_dropWhile_false h

theorem stripEnds_eq_self {p : Char → Bool} {l : List Char}
    (h1 : ∀ c, l.head? = some c → p c = false)
    (h2 : ∀ c, l.getLast? = some c → p c = false) :
    stripEnds p l = l := by
  cases l with
  | nil => rfl
  | cons a t =>
    have ha : p a = false := h1 a rfl
    unfold stripEnds
    rw [List.dropWhile_cons, if_neg (by simp [ha])]
    cases hl : (a :: t).reverse with
    | nil => simp at hl
    | cons b u =>
      have hb : (a :: t).getLast? = some b := by
        rw [← List.head?_reverse, hl]
        rfl
      have hpb : p b = false := h2 b hb
      rw [List.dropWhile_cons, if_neg (by simp [hpb]), ← hl,
        List.reverse_reverse]

/-! ## clean_string (data_quality.py) -/

/-- The control characters removed by the first regex of clean_string:
x00-x08, x0B-x0C, x0E-x1F and x7F (tab x09, newline x0A and carriage
return x0D are kept by this stage). -/
def isStrippedControl (c : Char) : Bool :=
  decide (c.toNat ≤ 8)
  || (decide (11 ≤ c.toNat) && decide (c.toNat ≤ 12))
  || (decide (14 ≤ c.toNat) && decide (c.toNat ≤ 31))
  || decide (c.toNat = 127)

/-- Python str.split() with no argument, on the character list: maximal
runs of non-whitespace characters, skipping whitespace; acc accumulates
the current word reversed. -/
def splitWsAux : List Char → List Char → List (List Char)
  | [], acc => if acc = [] then [] else [acc.reverse]
  | c :: cs, acc =>
    if isPySpace c then
      (if acc = [] then splitWsAux cs [] else acc.reverse :: splitWsAux cs [])
    else splitWsAux cs (c :: acc)

/-- Python str.split() with no argument. -/
def pySplitWords (l : List Char) : List (List Char) :=
  splitWsAux l []

/-- The character-list effect of Python " ".join(words). -/
def joinWords : List (List Char) → List Char
  | [] => []
  | [w] => w
  | w :: ws => w ++ ' ' :: joinWords ws

/-- clean_string: remove the control characters (keeping tab, newline and
carriage return), collapse whitespace via split/join, and strip.  (The
Python function first stringifies its argument and maps None to the empty
string; the model takes the string.) -/
def clean_string (s : String) : String :=
  String.mk (pyStripChars (joinWords (pySplitWords
    (s.data.filter (fun c => !(isStrippedControl c))))))

theorem splitWsAux_words (l : List Char) :
    ∀ (acc : List Char), (∀ c ∈ acc, isPySpace c = false) →
    ∀ w ∈ splitWsAux l acc, w ≠ [] ∧ ∀ c ∈ w, isPySpace c = false := by
  induction l with
  | nil =>
    intro acc hacc w hw
    unfold splitWsAux at hw
    split at hw
    · cases hw
    · next hne =>
      rw [List.mem_singleton] at hw
      subst hw
      exact ⟨by simpa using hne, fun c hc => hacc c (List.mem_reverse.mp hc)⟩
  | cons c cs ih =>
    intro acc hacc w hw
    unfold splitWsAux at hw
    by_cases hc : isPySpace c = true
    · rw [if_pos hc] at hw
      split at hw
      · exact ih [] (by simp) w hw
      · next hne =>
        rcases List.mem_cons.mp hw with rfl | hw2
        · exact ⟨by simpa using hne, fun d hd => hacc d (List.mem_reverse.mp hd)⟩
        · exact ih [] (by simp) w hw2
    · rw [if_neg hc] at hw
      refine ih (c :: acc) ?_ w hw
      intro d hd
      rcases List.mem_cons.mp hd with rfl | hd2
      · exact Bool.eq_false_iff.mpr hc
      · exact hacc d hd2

theorem splitWsAux_subset (l : List Char) :
    ∀ (acc : List Char), ∀ w ∈ splitWsAux l acc, ∀ c ∈ w, c ∈ l ∨ c ∈ acc := by
  induction l with
  | nil =>
    intro acc w hw d hd
    unfold splitWsAux at hw
    split at hw
    · cases hw
    · rw [List.mem_singleton] at hw
      subst hw
      exact Or.inr (List.mem_reverse.mp hd)
  | cons c cs ih =>
    intro acc w hw d hd
    unfold splitWsAux at hw
    by_cases hc : isPySpace c = true
    · rw [if_pos hc] at hw
      split at hw
      · rcases ih [] w hw d hd with h | h
        · exact Or.inl (by simp [h])
        · cases h
      · rcases List.mem_cons.mp hw with rfl | hw2
        · exact Or.inr (List.mem_reverse.mp hd)
        · rcases ih [] w hw2 d hd with h | h
          · exact Or.inl (by simp [h])
          · cases h
    · rw [if_neg hc] at hw
      rcases ih (c :: acc) w hw d hd with h | h
      · exact Or.inl (by simp [h])
      · rcases List.mem_cons.mp h with rfl | h2
        · exact Or.inl (by simp)
        · exact Or.inr h2

theorem mem_joinWords {ws : List (List Char)} {c : Char}
    (h : c ∈ joinWords ws) : (∃ w ∈ ws, c ∈ w) ∨ c = ' ' := by
  induction ws with
  | nil => simp [joinWords] at h
  | cons w ws2 ih =>
    cases ws2 with
    | nil =>
      simp only [joinWords] at h
      exact Or.inl ⟨w, by simp, h⟩
    | cons w2 ws3 =>
      rw [show joinWords (w :: w2 :: ws3) = w ++ ' ' :: joinWords (w2 :: ws3)
        from rfl] at h
      rcases List.mem_append.mp h with h1 | h2
      · exact Or.inl ⟨w, by simp, h1⟩
      · rcases List.mem_cons.mp h2 with rfl | h3
        · exact Or.inr rfl
        · rcases ih h3 with ⟨w3, hw3, hc3⟩ | hsp
          · exact Or.inl ⟨w3, by simp [hw3], hc3⟩
          · exact Or.inr hsp

/-- All words of a list are nonempty and whitespace-free. -/
def GoodWords (ws : List (List Char)) : Prop :=
  ∀ w ∈ ws, w ≠ [] ∧ ∀ c ∈ w, isPySpace c = false

theorem head?_joinWords {ws : List (List Char)} (hgw : GoodWords ws) {c : Char}
    (h : (joinWords ws).head? = some c) : isPySpace c = false := by
  cases ws with
  | nil => simp [joinWords] at h
  | cons w ws2 =>
    have hw := hgw w (by simp)
    cases ws2 with
    | nil =>
      simp only [joinWords] at h
      exact hw.2 c (List.mem_of_mem_head? (by simp [Option.mem_def, h]))
    | cons w2 ws3 =>
      rw [show joinWords (w :: w2 :: ws3) = w ++ ' ' :: joinWords (w2 :: ws3)
        from rfl, List.head?_append_of_ne_nil w hw.1] at h
      exact hw.2 c (List.mem_of_mem_head? (by simp [Option.mem_def, h]))

theorem joinWords_ne_nil {ws : List (List Char)} (hgw : GoodWords ws)
    (hne : ws ≠ []) : joinWords ws ≠ [] := by
  cases ws with
  | nil => exact absurd rfl hne
  | cons w ws2 =>
    have hw := hgw w (by simp)
    cases ws2 with
    | nil => simpa [joinWords] using hw.1
    | cons w2 ws3 =>
      rw [show joinWords (w :: w2 :: ws3) = w ++ ' ' :: joinWords (w2 :: ws3)
        from rfl]
      simp

theorem getLast?_joinWords {ws : List (List Char)} (hgw : GoodWords ws)
    {c : Char} (h : (joinWords ws).getLast? = some c) : isPySpace c = false := by
  induction ws with
  | nil => simp [joinWords] at h
  | cons w ws2 ih =>
    cases ws2 with
    | nil =>
      simp only [joinWords] at h
      exact (hgw w (by simp)).2 c (mem_of_getLast?_eq h)
    | cons w2 ws3 =>
      have hgw2 : GoodWords (w2 :: ws3) := fun x hx => hgw x (by simp [hx])
      rw [show joinWords (w :: w2 :: ws3) = w ++ ' ' :: joinWords (w2 :: ws3)
        from rfl,
        List.getLast?_append_of_ne_nil w (by simp),
        show (' ' :: joinWords (w2 :: ws3)) = [' '] ++ joinWords (w2 :: ws3)
          from rfl,
        List.getLast?_append_of_ne_nil [' '] (joinWords_ne_nil hgw2 (by simp))]
        at h
      exact ih hgw2 h

/-- No two adjacent spaces. -/
def noTwoSpaces (a b : Char) : Prop := ¬(a = ' ' ∧ b = ' ')

theorem chain_of_no_space {w : List Char}
    (h : ∀ c ∈ w, isPySpace c = false) : w.Chain' noTwoSpaces := by
  induction w with
  | nil => exact List.chain'_nil
  | cons a t ih =>
    cases t with
    | nil => exact List.chain'_singleton a
    | cons b t2 =>
      refine List.chain'_cons.mpr ⟨?_, ih (fun c hc => h c (by simp [hc]))⟩
      rintro ⟨ha, _⟩
      have := h a (by simp)
      rw [ha] at this
      exact absurd this (by decide)

theorem chain_joinWords {ws : List (List Char)} (hgw : GoodWords ws) :
    (joinWords ws).Chain' noTwoSpaces := by
  induction ws with
  | nil => simp [joinWords]
  | cons w ws2 ih =>
    have hw := hgw w (by simp)
    cases ws2 with
    | nil =>
      simp only [joinWords]
      exact chain_of_no_space hw.2
    | cons w2 ws3 =>
      have hgw2 : GoodWords (w2 :: ws3) := fun x hx => hgw x (by simp [hx])
      rw [show joinWords (w :: w2 :: ws3) = w ++ ' ' :: joinWords (w2 :: ws3)
        from rfl, List.chain'_append]
      refine ⟨chain_of_no_space hw.2, ?_, ?_⟩
      · refine List.chain'_cons'.mpr ⟨?_, ih hgw2⟩
        intro y hy
        have hyf : isPySpace y = false :=
          head?_joinWords hgw2 (Option.mem_def.mp hy)
        rintro ⟨_, hy2⟩
        rw [hy2] at hyf
        exact absurd hyf (by decide)
      · intro x hx y hy
        have hx2 : x ∈ w := mem_of_getLast?_eq (Option.mem_def.mp hx)
        rintro ⟨hx3, _⟩
        have := hw.2 x hx2
        rw [hx3] at this
        exact absurd this (by decide)

/-- Counterexample to C6 as stated: a newline in the input does not survive
cleaning — it is collapsed to a single space by the whitespace
normalization step. -/
theorem clean_string_newline_collapsed_counterexample :
    clean_string (String.mk ['a', '\n', 'b']) = "a b" ∧
    '\n' ∈ (String.mk ['a', '\n', 'b']).data ∧
    ¬ '\n' ∈ (clean_string (String.mk ['a', '\n', 'b'])).data := by
  refine ⟨by decide, by decide, by decide⟩

/-- C6 amended: clean_string strips the control characters (keeping tab,
newline and carriage return only up to the whitespace normalization),
collapses every internal whitespace run — including tabs and newlines,
which therefore do not survive — to a single space, and trims: the result
contains no stripped control character, its only whitespace is single
interior spaces, and it neither starts nor ends with whitespace. -/
theorem clean_string_collapses_and_trims (s : String) :
    (∀ c ∈ (clean_string s).data,
      isStrippedControl c = false ∧ (isPySpace c = true → c = ' ')) ∧
    (∀ c, (clean_string s).data.head? = some c → isPySpace c = false) ∧
    (∀ c, (clean_string s).data.getLast? = some c → isPySpace c = false) ∧
    (clean_string s).data.Chain' noTwoSpaces := by
  have hgw : GoodWords (pySplitWords
      (s.data.filter (fun c => !(isStrippedControl c)))) :=
    splitWsAux_words _ [] (by simp)
  refine ⟨?_, ?_, ?_, ?_⟩
  · intro c hc
    have hc2 : c ∈ joinWords (pySplitWords
        (s.data.filter (fun c => !(isStrippedControl c)))) := mem_stripEnds hc
    rcases mem_joinWords hc2 with ⟨w, hw, hcw⟩ | rfl
    · have hfl : c ∈ s.data.filter (fun c => !(isStrippedControl c)) := by
        rcases splitWsAux_subset _ [] w hw c hcw with h | h
        · exact h
        · cases h
      have hctl : isStrippedControl c = false := by
        have := (List.mem_filter.mp hfl).2
        simpa using this
      have hsp : isPySpace c = false := (hgw w hw).2 c hcw
      exact ⟨hctl, fun h => absurd (h ▸ hsp) (by simp)⟩
    · exact ⟨by decide, fun _ => rfl⟩
  · intro c hc
    exact head?_stripEnds hc
  · intro c hc
    exact getLast?_stripEnds hc
  · exact List.Chain'.infix (chain_joinWords hgw) (stripEnds_infixOf _ _)

/-- Witness for C6 amended on a concrete string with a tab and a run of
spaces. -/
theorem clean_string_collapses_and_trims_witness :
    (isStrippedControl 'a' = false ∧ (isPySpace 'a' = true → 'a' = ' ')) ∧
    isPySpace 'a' = false :=
  ⟨(clean_string_collapses_and_trims (String.mk ['a', '\t', 'b', ' ', ' ', 'c'])).1
      'a' (by decide),
    (clean_string_collapses_and_trims (String.mk ['a', '\t', 'b', ' ', ' ', 'c'])).2.1
      'a' (by decide)⟩

/-! ## normalize_field_name (data_quality.py / ingested_data.py) -/

/-- The word characters of the regex (ASCII part of Python \\w):
letters, digits and underscore. -/
def isWordChar (c : Char) : Bool :=
  c.isAlphanum || c = '_'

/-- re.sub of every non-word character with an underscore. -/
def substNonWord (l : List Char) : List Char :=
  l.map (fun c => if isWordChar c then c else '_')

/-- re.sub of every maximal run of underscores with one underscore; prev
records whether the previous emitted character was an underscore of a run
still being collapsed. -/
def collapseAux : List Char → Bool → List Char
  | [], _ => []
  | c :: cs, prev =>
    if c = '_' then
      (if prev then collapseAux cs true else '_' :: collapseAux cs true)
    else c :: collapseAux cs false

/-- Python str.strip(chars) for the underscore. -/
def stripUnderscores (l : List Char) : List Char :=
  stripEnds (fun c => c = '_') l

/-- normalize_field_name: lowercase, strip, replace non-word characters by
underscore, collapse underscore runs, strip underscores from the ends. -/
def normalize_field_name (name : String) : String :=
  String.mk (stripUnderscores (collapseAux
    (substNonWord (pyStripChars (name.data.map pyLowerChar))) false))

theorem toNat_ofNat_of_valid {n : Nat} (h : n.isValidChar) :
    (Char.ofNat n).toNat = n := by
  rw [Char.ofNat, dif_pos h]
  simp [Char.ofNatAux, Char.toNat, UInt32.toNat]

theorem pyLowerChar_idem (c : Char) :
    pyLowerChar (pyLowerChar c) = pyLowerChar c := by
  unfold pyLowerChar
  by_cases h : 65 ≤ c.toNat ∧ c.toNat ≤ 90
  · rw [if_pos h]
    have hvalid : (c.toNat + 32).isValidChar := Or.inl (by omega)
    have ht : (Char.ofNat (c.toNat + 32)).toNat = c.toNat + 32 :=
      toNat_ofNat_of_valid hvalid
    rw [ht, if_neg (by omega)]
  · rw [if_neg h, if_neg h]

theorem isPySpace_eq_false_of_isWordChar {c : Char}
    (h : isWordChar c = true) : isPySpace c = false := by
  by_cases hsp : isPySpace c = true
  · have hcs := hsp
    simp only [isPySpace, Bool.or_eq_true, decide_eq_true_eq] at hcs
    rcases hcs with ((((rfl | rfl) | rfl) | rfl) | rfl) | rfl <;>
      exact absurd h (by decide)
  · exact Bool.eq_false_iff.mpr hsp

theorem mem_substNonWord {l : List Char} {d : Char} (h : d ∈ substNonWord l) :
    isWordChar d = true ∧ (d = '_' ∨ d ∈ l) := by
  rcases List.mem_map.mp h with ⟨c, hc, rfl⟩
  by_cases hw : isWordChar c = true
  · rw [if_pos hw]
    exact ⟨hw, Or.inr hc⟩
  · rw [if_neg hw]
    exact ⟨by decide, Or.inl rfl⟩

theorem mem_collapseAux {l : List Char} :
    ∀ {prev : Bool} {d : Char}, d ∈ collapseAux l prev → d ∈ l := by
  induction l with
  | nil =>
    intro prev d h
    simp [collapseAux] at h
  | cons c cs ih =>
    intro prev d h
    unfold collapseAux at h
    split at h
    · next hc =>
      split at h
      · exact List.mem_cons_of_mem c (ih h)
      · rcases List.mem_cons.mp h with rfl | h2
        · rw [hc]
          exact List.mem_cons_self _ _
        · exact List.mem_cons_of_mem c (ih h2)
    · rcases List.mem_cons.mp h with rfl | h2
      · exact List.mem_cons_self _ _
      · exact List.mem_cons_of_mem c (ih h2)

/-- No two adjacent underscores. -/
def noTwoUnderscores (a b : Char) : Prop := ¬(a = '_' ∧ b = '_')

theorem collapseAux_chain (l : List Char) :
    ∀ prev : Bool, (collapseAux l prev).Chain' noTwoUnderscores ∧
      (prev = true → (collapseAux l prev).head? ≠ some '_') := by
  induction l with
  | nil =>
    intro prev
    exact ⟨List.chain'_nil, by simp [collapseAux]⟩
  | cons c cs ih =>
    intro prev
    unfold collapseAux
    by_cases hc : c = '_'
    · subst hc
      rw [if_pos rfl]
      cases prev with
      | true =>
        rw [if_pos rfl]
        exact ⟨(ih true).1, fun _ => (ih true).2 rfl⟩
      | false =>
        rw [if_neg (by simp)]
        constructor
        · refine List.chain'_cons'.mpr ⟨?_, (ih true).1⟩
          intro y hy
          rintro ⟨_, hy2⟩
          exact (ih true).2 rfl (by rw [← hy2]; exact Option.mem_def.mp hy)
        · intro hfalse
          exact absurd hfalse (by simp)
    · rw [if_neg hc]
      constructor
      · refine List.chain'_cons'.mpr ⟨?_, (ih false).1⟩
        intro y hy
        rintro ⟨hc2, _⟩
        exact hc hc2
      · intro _
        simp only [List.head?_cons, ne_eq, Option.some.injEq]
        exact hc

theorem collapseAux_eq_self :
    ∀ (l : List Char), l.Chain' noTwoUnderscores →
    ∀ prev : Bool, (prev = true → l.head? ≠ some '_') →
    collapseAux l prev = l := by
  intro l
  induction l with
  | nil =>
    intro _ prev _
    rfl
  | cons c cs ih =>
    intro hch prev hp
    unfold collapseAux
    by_cases hc : c = '_'
    · subst hc
      cases prev with
      | true => exact absurd rfl (hp rfl)
      | false =>
        rw [if_pos rfl, if_neg (by simp)]
        congr 1
        refine ih (List.chain'_cons'.mp hch).2 true (fun _ he => ?_)
        have := (List.chain'_cons'.mp hch).1 '_' (by rw [he]; rfl)
        exact this ⟨rfl, rfl⟩
    · rw [if_neg hc]
      congr 1
      exact ih (List.chain'_cons'.mp hch).2 false (fun h => absurd h (by simp))

/-- Executable check that a character list has no two adjacent
underscores. -/
def noAdjUnderscoresB : List Char → Bool
  | [] => true
  | [_] => true
  | a :: b :: t => !(a = '_' && b = '_') && noAdjUnderscoresB (b :: t)

theorem noAdjUnderscoresB_iff_chain (l : List Char) :
    noAdjUnderscoresB l = true ↔ l.Chain' noTwoUnderscores := by
  induction l with
  | nil => simp [noAdjUnderscoresB]
  | cons a t ih =>
    cases t with
    | nil => simp [noAdjUnderscoresB]
    | cons b t2 =>
      rw [show noAdjUnderscoresB (a :: b :: t2)
          = (!(a = '_' && b = '_') && noAdjUnderscoresB (b :: t2)) from rfl,
        List.chain'_cons, Bool.and_eq_true, ih]
      constructor
      · rintro ⟨h1, h2⟩
        refine ⟨?_, h2⟩
        rintro ⟨ha, hb⟩
        simp [ha, hb] at h1
      · rintro ⟨h1, h2⟩
        refine ⟨?_, h2⟩
        by_cases ha : a = '_'
        · have hb : ¬ b = '_' := fun hb => h1 ⟨ha, hb⟩
          simp [ha, hb]
        · simp [ha]

/-- A field name already in normal form: only lowercase word characters,
no two adjacent underscores, and no underscore at either end. -/
def NormalizedName (s : String) : Prop :=
  (∀ c ∈ s.data, isWordChar c = true ∧ pyLowerChar c = c) ∧
  noAdjUnderscoresB s.data = true ∧
  s.data.head? ≠ some '_' ∧ s.data.getLast? ≠ some '_'

instance (s : String) : Decidable (NormalizedName s) :=
  inferInstanceAs (Decidable
    ((∀ c ∈ s.data, isWordChar c = true ∧ pyLowerChar c = c) ∧
      noAdjUnderscoresB s.data = true ∧
      s.data.head? ≠ some '_' ∧ s.data.getLast? ≠ some '_'))

theorem normalized_normalize_field_name (s : String) :
    NormalizedName (normalize_field_name s) := by
  refine ⟨?_, ?_, ?_, ?_⟩
  · intro c hc
    have hc2 : c ∈ collapseAux
        (substNonWord (pyStripChars (s.data.map pyLowerChar))) false :=
      mem_stripEnds hc
    have hc3 := mem_collapseAux hc2
    rcases mem_substNonWord hc3 with ⟨hw, hor⟩
    refine ⟨hw, ?_⟩
    rcases hor with rfl | hmem
    · decide
    · have hc4 : c ∈ s.data.map pyLowerChar := mem_stripEnds hmem
      rcases List.mem_map.mp hc4 with ⟨c0, _, rfl⟩
      exact pyLowerChar_idem c0
  · exact (noAdjUnderscoresB_iff_chain _).mpr
      ( List.Chain'.infix ((collapseAux_chain _ false).1)
        (stripEnds_infixOf _ _))
  · intro he
    exact absurd (head?_stripEnds he) (by decide)
  · intro he
    exact absurd (getLast?_stripEnds he) (by decide)

theorem normalize_fixpoint {t : String} (h : NormalizedName t) :
    normalize_field_name t = t := by
  obtain ⟨hchars, hchainB, hhead, hlast⟩ := h
  have hchain := (noAdjUnderscoresB_iff_chain _).mp hchainB
  unfold normalize_field_name
  have h1 : t.data.map pyLowerChar = t.data := by
    calc t.data.map pyLowerChar
        = t.data.map id := List.map_congr_left (fun c hc => (hchars c hc).2)
      _ = t.data := List.map_id _
  rw [h1]
  have h2 : pyStripChars t.data = t.data := by
    unfold pyStripChars
    apply stripEnds_eq_self
    · intro c hc
      exact isPySpace_eq_false_of_isWordChar
        (hchars c (List.mem_of_mem_head? (Option.mem_def.mpr hc))).1
    · intro c hc
      exact isPySpace_eq_false_of_isWordChar
        (hchars c (mem_of_getLast?_eq hc)).1
  rw [h2]
  have h3 : substNonWord t.data = t.data := by
    unfold substNonWord
    calc t.data.map (fun c => if isWordChar c then c else '_')
        = t.data.map id :=
          List.map_congr_left (fun c hc => if_pos (hchars c hc).1)
      _ = t.data := List.map_id _
  rw [h3]
  rw [collapseAux_eq_self t.data hchain false (fun h => absurd h (by simp))]
  have h5 : stripUnderscores t.data = t.data := by
    unfold stripUnderscores
    apply stripEnds_eq_self
    · intro c hc
      have : c ≠ '_' := fun e => hhead (by rw [← e]; exact hc)
      simpa using this
    · intro c hc
      have : c ≠ '_' := fun e => hlast (by rw [← e]; exact hc)
      simpa using this
  rw [h5]

/-- C7: field-name normalization is idempotent, and a name already in
normalized form (lowercase word characters, no repeated underscores, no
leading or trailing underscore) is returned unchanged. -/
theorem normalize_field_name_idempotent (s : String) :
    normalize_field_name (normalize_field_name s) = normalize_field_name s ∧
    (NormalizedName s → normalize_field_name s = s) :=
  ⟨normalize_fixpoint (normalized_normalize_field_name s),
    fun h => normalize_fixpoint h⟩

/-- Witness for C7 at a concrete already-normalized name. -/
theorem normalize_field_name_idempotent_witness :
    NormalizedName "first_name" ∧
    normalize_field_name "first_name" = "first_name" :=
  ⟨by decide, (normalize_field_name_idempotent "first_name").2 (by decide)⟩

/-! ## Nested record values and flatten_dict (ingested_data.py) -/

/-- A Python value as the readers produce it: a scalar (string, number,
boolean, None), a dict, or a list. -/
inductive JValue where
  | str : String → JValue
  | num : Int → JValue
  | jbool : Bool → JValue
  | null : JValue
  | obj : List (String × JValue) → JValue
  | arr : List JValue → JValue

/-- Is the value a scalar (neither dict nor list)? -/
def isScalar : JValue → Bool
  | .obj _ => false
  | .arr _ => false
  | _ => true

/-- Model of Python str() on a parsed value, used by flatten_dict to
stringify list values. -/
def pyRepr : JValue → String
  | .str s => "\x27" ++ s ++ "\x27"
  | .num n => toString n
  | .jbool b => if b then "True" else "False"
  | .null => "None"
  | .obj entries => "\x7b" ++ String.intercalate ", "
      (entries.attach.map (fun p =>
        "\x27" ++ p.1.1 ++ "\x27: " ++ pyRepr p.1.2)) ++ "\x7d"
  | .arr elems => "[" ++ String.intercalate ", "
      (elems.attach.map (fun p => pyRepr p.1)) ++ "]"
termination_by v => sizeOf v
decreasing_by
  · rcases p with ⟨⟨k, v⟩, hp⟩
    have h1 := List.sizeOf_lt_of_mem hp
    simp only [Prod.mk.sizeOf_spec] at h1
    simp
    omega
  · rcases p with ⟨v, hp⟩
    have h1 := List.sizeOf_lt_of_mem hp
    simp
    omega

/-- The compound key of the flattener. -/
def newKey (parent sep k : String) : String :=
  if parent = "" then k else parent ++ sep ++ k

/-- One step of Python dict insertion: assigning to an existing key keeps
its position and replaces its value, a fresh key is appended. -/
def upsert (acc : List (String × JValue)) (kv : String × JValue) :
    List (String × JValue) :=
  if acc.any (fun p => p.1 = kv.1) then
    acc.map (fun p => if p.1 = kv.1 then (p.1, kv.2) else p)
  else acc ++ [kv]

/-- Python dict(items): first-occurrence order, last value wins. -/
def pyDict (items : List (String × JValue)) : List (String × JValue) :=
  items.foldl upsert []

/-- The items list flatten_dict accumulates: nested dicts recurse with a
compound key; a list whose first element is a dict is flattened through
that first element only; any other list is stringified (empty list to the
empty string); scalars are kept.  (The inner dict() calls of the Python
recursion only collapse duplicate keys; the outermost dict() performs the
same collapse, so they are modelled by the single pyDict of flatten_dict.) -/
def flatten_items (parent sep : String) :
    List (String × JValue) → List (String × JValue)
  | [] => []
  | (k, v) :: rest =>
    (match v with
      | JValue.obj entries => flatten_items (newKey parent sep k) sep entries
      | JValue.arr (JValue.obj e0 :: _) =>
        flatten_items (newKey parent sep k) sep e0
      | JValue.arr [] => [(newKey parent sep k, JValue.str "")]
      | JValue.arr l => [(newKey parent sep k, JValue.str (pyRepr (JValue.arr l)))]
      | sc => [(newKey parent sep k, sc)])
    ++ flatten_items parent sep rest

/-- flatten_dict with its default parent_key and separator. -/
def flatten_dict (d : List (String × JValue)) : List (String × JValue) :=
  pyDict (flatten_items "" "_" d)

theorem isScalar_flatten_items (parent sep : String)
    (d : List (String × JValue)) :
    ∀ p ∈ flatten_items parent sep d, isScalar p.2 = true := by
  induction parent, sep, d using flatten_items.induct with
  | case1 parent sep =>
    intro p hp
    simp [flatten_items] at hp
  | case2 parent sep k v rest ihv ihrest =>
    intro p hp
    cases v with
    | obj entries =>
      simp only [flatten_items] at hp
      rcases List.mem_append.mp hp with h | h
      · exact ihv p h
      · exact ihrest p h
    | arr l =>
      cases l with
      | nil =>
        simp only [flatten_items] at hp
        rcases List.mem_append.mp hp with h | h
        · rcases List.mem_singleton.mp h with rfl
          rfl
        · exact ihrest p h
      | cons hd tl =>
        cases hd with
        | obj e0 =>
          simp only [flatten_items] at hp
          rcases List.mem_append.mp hp with h | h
          · exact ihv p h
          · exact ihrest p h
        | str s =>
          simp only [flatten_items] at hp
          rcases List.mem_append.mp hp with h | h
          · rcases List.mem_singleton.mp h with rfl
            rfl
          · exact ihrest p h
        | num n =>
          simp only [flatten_items] at hp
          rcases List.mem_append.mp hp with h | h
          · rcases List.mem_singleton.mp h with rfl
            rfl
          · exact ihrest p h
        | jbool b =>
          simp only [flatten_items] at hp
          rcases List.mem_append.mp hp with h | h
          · rcases List.mem_singleton.mp h with rfl
            rfl
          · exact ihrest p h
        | null =>
          simp only [flatten_items] at hp
          rcases List.mem_append.mp hp with h | h
          · rcases List.mem_singleton.mp h with rfl
            rfl
          · exact ihrest p h
        | arr l2 =>
          simp only [flatten_items] at hp
          rcases List.mem_append.mp hp with h | h
          · rcases List.mem_singleton.mp h with rfl
            rfl
          · exact ihrest p h
    | str s =>
      simp only [flatten_items] at hp
      rcases List.mem_append.mp hp with h | h
      · rcases List.mem_singleton.mp h with rfl
        rfl
      · exact ihrest p h
    | num n =>
      simp only [flatten_items] at hp
      rcases List.mem_append.mp hp with h | h
      · rcases List.mem_singleton.mp h with rfl
        rfl
      · exact ihrest p h
    | jbool b =>
      simp only [flatten_items] at hp
      rcases List.mem_append.mp hp with h | h
      · rcases List.mem_singleton.mp h with rfl
        rfl
      · exact ihrest p h
    | null =>
      simp only [flatten_items] at hp
      rcases List.mem_append.mp hp with h | h
      · rcases List.mem_singleton.mp h with rfl
        rfl
      · exact ihrest p h

theorem mem_upsert {acc : List (String × JValue)} {kv p : String × JValue}
    (h : p ∈ upsert acc kv) : p ∈ acc ∨ p = kv := by
  unfold upsert at h
  split at h
  · rcases List.mem_map.mp h with ⟨q, hq, rfl⟩
    by_cases hqk : q.1 = kv.1
    · rw [if_pos hqk, hqk]
      exact Or.inr rfl
    · rw [if_neg hqk]
      exact Or.inl hq
  · rcases List.mem_append.mp h with h2 | h2
    · exact Or.inl h2
    · exact Or.inr (List.mem_singleton.mp h2)

theorem mem_foldl_upsert (items : List (String × JValue)) :
    ∀ (acc : List (String × JValue)) (p : String × JValue),
      p ∈ items.foldl upsert acc → p ∈ acc ∨ p ∈ items := by
  induction items with
  | nil =>
    intro acc p h
    exact Or.inl h
  | cons kv rest ih =>
    intro acc p h
    rcases ih (upsert acc kv) p h with h2 | h2
    · rcases mem_upsert h2 with h3 | rfl
      · exact Or.inl h3
      · exact Or.inr (List.mem_cons_self _ _)
    · exact Or.inr (List.mem_cons_of_mem _ h2)

theorem mem_pyDict {items : List (String × JValue)} {p : String × JValue}
    (h : p ∈ pyDict items) : p ∈ items := by
  rcases mem_foldl_upsert items [] p h with h2 | h2
  · cases h2
  · exact h2

/-- The key list of a record. -/
def keys (l : List (String × JValue)) : List String :=
  l.map Prod.fst

theorem keys_upsert_nodup {acc : List (String × JValue)}
    (kv : String × JValue) (h : (keys acc).Nodup) :
    (keys (upsert acc kv)).Nodup := by
  unfold upsert
  split
  · have heq : keys (acc.map (fun p => if p.1 = kv.1 then (p.1, kv.2) else p))
        = keys acc := by
      unfold keys
      rw [List.map_map]
      apply List.map_congr_left
      intro p _
      by_cases hp : p.1 = kv.1 <;> simp [hp]
    rw [heq]
    exact h
  · next hnotany =>
    unfold keys
    rw [List.map_append]
    rw [List.nodup_append]
    refine ⟨h, List.nodup_singleton _, ?_⟩
    intro x hx
    simp only [List.map_cons, List.map_nil, List.mem_singleton]
    intro hxk
    apply hnotany
    rcases List.mem_map.mp hx with ⟨q, hq, rfl⟩
    exact List.any_eq_true.mpr ⟨q, hq, by simpa using hxk⟩

theorem nodup_keys_foldl_upsert (items : List (String × JValue)) :
    ∀ acc, (keys acc).Nodup → (keys (items.foldl upsert acc)).Nodup := by
  induction items with
  | nil =>
    intro acc h
    exact h
  | cons kv rest ih =>
    intro acc h
    exact ih (upsert acc kv) (keys_upsert_nodup kv h)

theorem nodup_keys_pyDict (items : List (String × JValue)) :
    (keys (pyDict items)).Nodup :=
  nodup_keys_foldl_upsert items [] (by simp [keys])

theorem foldl_upsert_of_nodup (l : List (String × JValue)) :
    ∀ acc, (keys (acc ++ l)).Nodup → l.foldl upsert acc = acc ++ l := by
  induction l with
  | nil =>
    intro acc _
    simp
  | cons kv rest ih =>
    intro acc h
    have hassoc : (acc ++ [kv]) ++ rest = acc ++ kv :: rest := by simp
    have hdisj : ¬ acc.any (fun p => p.1 = kv.1) = true := by
      intro hany
      rcases List.any_eq_true.mp hany with ⟨q, hq, hqk⟩
      have hkeys : keys (acc ++ kv :: rest) = keys acc ++ keys (kv :: rest) := by
        unfold keys
        exact List.map_append _ _ _
      rw [hkeys, List.nodup_append] at h
      have h1 : kv.1 ∈ keys acc :=
        List.mem_map.mpr ⟨q, hq, by simpa using hqk⟩
      have h2 : kv.1 ∈ keys (kv :: rest) := by simp [keys]
      exact absurd h2 (h.2.2 h1)
    rw [List.foldl_cons]
    have hup : upsert acc kv = acc ++ [kv] := by
      unfold upsert
      rw [if_neg hdisj]
    rw [hup]
    have hrec := ih (acc ++ [kv]) (by rw [hassoc]; exact h)
    rw [hrec, hassoc]

theorem pyDict_eq_self {l : List (String × JValue)} (h : (keys l).Nodup) :
    pyDict l = l := by
  unfold pyDict
  have := foldl_upsert_of_nodup l [] (by simpa using h)
  simpa using this

theorem flatten_items_scalar (sep : String) (d : List (String × JValue))
    (h : ∀ p ∈ d, isScalar p.2 = true) :
    flatten_items "" sep d = d := by
  induction d with
  | nil => rw [flatten_items]
  | cons kv rest ih =>
    rcases kv with ⟨k, v⟩
    have hv := h (k, v) (List.mem_cons_self _ _)
    have hrest := ih (fun p hp => h p (List.mem_cons_of_mem _ hp))
    cases v with
    | obj entries => exact absurd hv (by simp [isScalar])
    | arr l => exact absurd hv (by simp [isScalar])
    | str s =>
      simp only [flatten_items]
      rw [hrest]
      rfl
    | num n =>
      simp only [flatten_items]
      rw [hrest]
      rfl
    | jbool b =>
      simp only [flatten_items]
      rw [hrest]
      rfl
    | null =>
      simp only [flatten_items]
      rw [hrest]
      rfl

/-- C8: flattening is idempotent, and an already-flat record (scalar
values, distinct keys, as a Python dict has) is returned unchanged. -/
theorem flatten_dict_idempotent (d : List (String × JValue)) :
    flatten_dict (flatten_dict d) = flatten_dict d ∧
    ((∀ p ∈ d, isScalar p.2 = true) ∧ (keys d).Nodup →
      flatten_dict d = d) := by
  constructor
  · have hscalar : ∀ p ∈ pyDict (flatten_items "" "_" d),
        isScalar p.2 = true :=
      fun p hp => isScalar_flatten_items "" "_" d p (mem_pyDict hp)
    show pyDict (flatten_items "" "_" (flatten_dict d)) = flatten_dict d
    unfold flatten_dict
    rw [flatten_items_scalar "_" _ hscalar]
    exact pyDict_eq_self (nodup_keys_pyDict _)
  · rintro ⟨hs, hn⟩
    unfold flatten_dict
    rw [flatten_items_scalar "_" d hs]
    exact pyDict_eq_self hn

/-- A concrete already-flat record. -/
def dFlatRecord : List (String × JValue) :=
  [("name", JValue.str "bob"), ("age", JValue.num 7)]

/-- Witness for C8 on the concrete flat record. -/
theorem flatten_dict_idempotent_witness :
    ((∀ p ∈ dFlatRecord, isScalar p.2 = true) ∧ (keys dFlatRecord).Nodup) ∧
    flatten_dict dFlatRecord = dFlatRecord :=
  ⟨⟨by decide, by decide⟩,
    (flatten_dict_idempotent dFlatRecord).2 ⟨by decide, by decide⟩⟩

/-! ## Malformed-JSON repair (data_quality.py, fix_malformed_json_line) -/

/-- The whitespace accepted between JSON tokens. -/
def jsonWs (c : Char) : Bool :=
  c = ' ' || c = '\t' || c = '\n' || c = '\r'

/-- Body of a JSON string after the opening quote: returns the raw content
characters and the input following the closing quote.  (Escape sequences
are kept raw; their decoding does not affect acceptance.) -/
def parseStringBody : List Char → Option (List Char × List Char)
  | [] => none
  | '\\' :: c :: rest =>
    (parseStringBody rest).map (fun p => ('\\' :: c :: p.1, p.2))
  | '"' :: rest => some ([], rest)
  | c :: rest => (parseStringBody rest).map (fun p => (c :: p.1, p.2))

/-- Numeric value of a digit run. -/
def parseDigitsVal (ds : List Char) : Nat :=
  ds.foldl (fun a c => a * 10 + (c.toNat - 48)) 0

/-- Optional fraction part of a JSON number. -/
def parseFrac : List Char → Option (List Char)
  | '.' :: rest =>
    if rest.takeWhile Char.isDigit = [] then none
    else some (rest.dropWhile Char.isDigit)
  | l => some l

/-- Optional exponent part of a JSON number. -/
def parseExp : List Char → Option (List Char)
  | c :: rest =>
    if c = 'e' ∨ c = 'E' then
      match rest with
      | sgn :: r2 =>
        if sgn = '+' ∨ sgn = '-' then
          (if r2.takeWhile Char.isDigit = [] then none
           else some (r2.dropWhile Char.isDigit))
        else
          (if rest.takeWhile Char.isDigit = [] then none
           else some (rest.dropWhile Char.isDigit))
      | [] => none
    else some (c :: rest)
  | [] => some []

/-- A JSON number after the optional minus sign.  (The numeric value is
modelled by the integer part; the value does not affect acceptance.) -/
def parseNumberCore (l : List Char) (neg : Bool) : Option (JValue × List Char) :=
  if l.takeWhile Char.isDigit = [] then none
  else
    match parseFrac (l.dropWhile Char.isDigit) with
    | none => none
    | some l3 =>
      match parseExp l3 with
      | none => none
      | some l4 =>
        some (JValue.num
          (if neg then -(parseDigitsVal (l.takeWhile Char.isDigit) : Int)
           else (parseDigitsVal (l.takeWhile Char.isDigit) : Int)), l4)

/-- A JSON number. -/
def parseNumber : List Char → Option (JValue × List Char)
  | '-' :: rest => parseNumberCore rest true
  | l => parseNumberCore l false

mutual

/-- A JSON value, fueled recursive-descent model of json.loads. -/
def parseValue : Nat → List Char → Option (JValue × List Char)
  | 0, _ => none
  | fuel + 1, l =>
    match l.dropWhile jsonWs with
    | 'n' :: 'u' :: 'l' :: 'l' :: rest => some (JValue.null, rest)
    | 't' :: 'r' :: 'u' :: 'e' :: rest => some (JValue.jbool true, rest)
    | 'f' :: 'a' :: 'l' :: 's' :: 'e' :: rest => some (JValue.jbool false, rest)
    | '"' :: rest =>
      (parseStringBody rest).map (fun p => (JValue.str (String.mk p.1), p.2))
    | '\x7b' :: rest =>
      (match rest.dropWhile jsonWs with
        | '\x7d' :: r2 => some (JValue.obj [], r2)
        | r2 => (parseMembers fuel r2).map (fun p => (JValue.obj p.1, p.2)))
    | '[' :: rest =>
      (match rest.dropWhile jsonWs with
        | ']' :: r2 => some (JValue.arr [], r2)
        | r2 => (parseElements fuel r2).map (fun p => (JValue.arr p.1, p.2)))
    | rest => parseNumber rest

/-- The members of a JSON object, from the first key to the closing
brace. -/
def parseMembers : Nat → List Char → Option (List (String × JValue) × List Char)
  | 0, _ => none
  | fuel + 1, l =>
    match l with
    | '"' :: rest =>
      (match parseStringBody rest with
        | none => none
        | some (k, r1) =>
          match r1.dropWhile jsonWs with
          | ':' :: r3 =>
            (match parseValue fuel r3 with
              | none => none
              | some (v, r4) =>
                match r4.dropWhile jsonWs with
                | ',' :: r6 =>
                  (match parseMembers fuel (r6.dropWhile jsonWs) with
                    | none => none
                    | some (ms, r8) => some ((String.mk k, v) :: ms, r8))
                | '\x7d' :: r6 => some ([(String.mk k, v)], r6)
                | _ => none)
          | _ => none)
    | _ => none

/-- The elements of a JSON array, from the first element to the closing
bracket. -/
def parseElements : Nat → List Char → Option (List JValue × List Char)
  | 0, _ => none
  | fuel + 1, l =>
    match parseValue fuel l with
    | none => none
    | some (v, r1) =>
      match r1.dropWhile jsonWs with
      | ',' :: r2 =>
        (match parseElements fuel (r2.dropWhile jsonWs) with
          | none => none
          | some (vs, r3) => some (v :: vs, r3))
      | ']' :: r2 => some ([v], r2)
      | _ => none

end

/-- json.loads: parse one value and require only whitespace after it.  The
fuel is one more than the input length, enough for any input. -/
def json_loads (s : String) : Option JValue :=
  match parseValue (s.data.length + 1) s.data with
  | some (v, rest) => if rest.dropWhile jsonWs = [] then some v else none
  | none => none

/-- Python line.count(c) for a single character. -/
def countChar (c : Char) (s : String) : Nat :=
  s.data.count c

/-- The repair step of fix_malformed_json_line for one bracket pair:
append the missing closers when the openers outnumber them. -/
def addClosers (o c : Char) (s : String) : String :=
  if countChar c s < countChar o s then
    s ++ String.mk (List.replicate (countChar o s - countChar c s) c)
  else s

/-- fix_malformed_json_line: empty or whitespace-only input gives None;
otherwise strip, balance braces then brackets, and return the repaired
line only if it parses as JSON, else None. -/
def fix_malformed_json_line (line : String) : Option String :=
  if pyStrip line = "" then none
  else
    match json_loads (addClosers '[' ']'
        (addClosers '\x7b' '\x7d' (pyStrip line))) with
    | some _ => some (addClosers '[' ']'
        (addClosers '\x7b' '\x7d' (pyStrip line)))
    | none => none

/-- C10: fix_malformed_json_line maps empty or whitespace-only input to
None, and whenever it returns a string, that string parses as valid JSON. -/
theorem fix_malformed_json_line_safe (line : String) :
    (pyStrip line = "" → fix_malformed_json_line line = none) ∧
    (∀ s, fix_malformed_json_line line = some s →
      (json_loads s).isSome = true) := by
  constructor
  · intro h
    unfold fix_malformed_json_line
    rw [if_pos h]
  · intro s hs
    unfold fix_malformed_json_line at hs
    by_cases h0 : pyStrip line = ""
    · rw [if_pos h0] at hs
      cases hs
    · rw [if_neg h0] at hs
      rcases hj : json_loads (addClosers '[' ']'
          (addClosers '\x7b' '\x7d' (pyStrip line))) with _ | v
      · rw [hj] at hs
        cases hs
      · rw [hj] at hs
        injection hs with h2
        subst h2
        rw [hj]
        rfl

/-- Witness for C10: whitespace-only input, and a brace-truncated object
line whose repair parses. -/
theorem fix_malformed_json_line_safe_witness :
    fix_malformed_json_line "  " = none ∧
    (json_loads "\x7b\"a\": 1\x7d").isSome = true :=
  ⟨(fix_malformed_json_line_safe "  ").1 (by decide),
    (fix_malformed_json_line_safe "\x7b\"a\": 1").2 "\x7b\"a\": 1\x7d"
      (by decide)⟩

end BigData
